import Mathlib

/-!
Verification of the snapshot engine of `save-manager` (`src/main.rs`).

The engine works over a snapshot directory.  We embed a directory as a list
of entries; an entry carries its on-disk name, whether it is a regular file
(the Rust code filters on `file.path().is_file()`), and its byte content
(bytes are modelled as `List Nat`).

Rust `usize` is modelled as `Nat`: snapshot indices start at 1 and grow by
one per created entry, so the `usize` overflow boundary is unreachable for
any physically realisable directory and is not modelled.
-/

namespace SaveManager

/-- Directory entry: on-disk name, regular-file flag, raw byte content. -/
structure Entry where
  name : String
  isFile : Bool
  content : List Nat
deriving DecidableEq

/-- Numeric value of a list of ASCII digit characters, most significant
first: the accumulator loop of Rust's integer `from_str`. -/
def digitsVal (cs : List Char) : Nat :=
  cs.foldl (fun a c => 10 * a + (c.toNat - 48)) 0

/-- Parse a run of mandatory ASCII digits, as Rust's unsigned `from_str`
does after the optional sign: at least one digit, all characters digits. -/
def parseDigits (cs : List Char) : Option Nat :=
  if cs ≠ [] ∧ cs.all Char.isDigit then some (digitsVal cs) else none

/-- Embedding of Rust `str::parse::<usize>()`: an optional leading `+`
followed by one or more ASCII digits; anything else is an error (`none`).
A leading `-` fails because `-` is not a digit, exactly as for `usize`. -/
def parseUsize (s : String) : Option Nat :=
  if s.data.head? = some '+' then parseDigits s.data.tail else parseDigits s.data

/-- Embedding of Rust `s.splitn(2, '_')` collected to a list: the text
before the first `'_'`, and, when a separator occurs, the remainder. -/
def splitn2 (s : String) : List String :=
  match s.data.dropWhile (fun c => c != '_') with
  | [] => [⟨s.data.takeWhile (fun c => c != '_')⟩]
  | _ :: suf => [⟨s.data.takeWhile (fun c => c != '_')⟩, ⟨suf⟩]

/-- The name's text before the first separator:
Rust `name.splitn(2, '_').next().unwrap()`.  The `unwrap` is modelled by
`Option.getD`; `splitn2_head?_eq` below shows the default is never used. -/
def indexPart (s : String) : String :=
  ((splitn2 s).head?).getD ""

/-- Parse of the index encoded in an entry name:
`name.splitn(2, '_').next().unwrap().parse::<usize>()`. -/
def parseIdx (s : String) : Option Nat :=
  parseUsize (indexPart s)

/-- The pipeline of `backup_core` (main.rs:294-299) before `.max()`:
keep regular files, take their names, keep the names whose part before the
first `'_'` parses as a `usize`, yielding the parsed values. -/
def parsedIndices (dir : List Entry) : List Nat :=
  ((dir.filter (fun e => e.isFile)).map (fun e => e.name)).filterMap parseIdx

/-- The save number computed by `backup_core` (main.rs:294-304):
`max + 1` over the parsed indices, `1` when there is none. -/
def nextSaveNumber (dir : List Entry) : Nat :=
  match (parsedIndices dir).max? with
  | some x => x + 1
  | none => 1

/-- ASCII digit character of a value below ten. -/
def digitChar (d : Nat) : Char :=
  match d with
  | 0 => '0' | 1 => '1' | 2 => '2' | 3 => '3' | 4 => '4'
  | 5 => '5' | 6 => '6' | 7 => '7' | 8 => '8' | _ => '9'

/-- Decimal digit characters of a natural number, most significant first. -/
def natDigits (n : Nat) : List Char :=
  if _h : n < 10 then [digitChar n]
  else natDigits (n / 10) ++ [digitChar (n % 10)]
decreasing_by exact Nat.div_lt_self (by omega) (by omega)

/-- Embedding of Rust `usize::to_string()`: decimal representation. -/
def natStr (n : Nat) : String :=
  ⟨natDigits n⟩

/-- Strip leading and trailing whitespace from a character list. -/
def trimChars (cs : List Char) : List Char :=
  ((cs.dropWhile Char.isWhitespace).reverse.dropWhile Char.isWhitespace).reverse

/-- Embedding of Rust `str::trim()` (main.rs:311). -/
def strTrim (s : String) : String :=
  ⟨trimChars s.data⟩

/-- Destination file name built by `backup_core` (main.rs:306-313):
`"{index}"` for an empty note, `"{index}_{note.trim()}"` otherwise. -/
def mkName (n : Nat) (note : String) : String :=
  if note = "" then natStr n else natStr n ++ "_" ++ strTrim note

/-- Success path of `backup_core` (main.rs:293-318): compute the next save
number, copy the source bytes to the new entry, return the new directory
contents and the assigned index.  `fs::copy` creates the destination entry;
no existing entry is modified. -/
def backup_core (dir : List Entry) (src : List Nat) (note : String) :
    List Entry × Nat :=
  let n := nextSaveNumber dir
  (dir ++ [⟨mkName n note, true, src⟩], n)

/-- Outcome of the `backup` wrapper (main.rs:229-291). -/
inductive BackupOutcome where
  | notConfigured
  | sourceMissing
  | created (idx : Nat)
deriving DecidableEq

/-- The `backup` wrapper (main.rs:229-291): no configured save file is the
`"No file has been set to backup."` error; a source path that is not a
regular file shows `"Save file not found."` and touches nothing; otherwise
`backup_core` runs. -/
def backup (cfg : Option String) (srcIsFile : Bool) (dir : List Entry)
    (src : List Nat) (note : String) : BackupOutcome × List Entry :=
  match cfg with
  | none => (.notConfigured, dir)
  | some _ =>
    if !srcIsFile then (.sourceMissing, dir)
    else
      let r := backup_core dir src note
      (.created r.2, r.1)

/-- Sort key of the restore listing (main.rs:338-340):
`key.splitn(2, '_').next().unwrap().parse::<usize>().unwrap()`.  The second
`unwrap` is modelled by `Option.getD 0`; `listingNames_parse_isSome` below
shows every listed name parses, so the default is never used. -/
def sortKey (s : String) : Nat :=
  (parseIdx s).getD 0

/-- Comparison by numeric sort key, used to embed `sort_unstable_by_key`. -/
def keyLe (a b : String) : Prop :=
  sortKey a ≤ sortKey b

instance : DecidableRel keyLe :=
  fun a b => inferInstanceAs (Decidable (sortKey a ≤ sortKey b))

instance : IsTotal String keyLe :=
  ⟨fun a b => Nat.le_total (sortKey a) (sortKey b)⟩

instance : IsTrans String keyLe :=
  ⟨fun _ _ _ => Nat.le_trans⟩

/-- The filter stage of the restore listing (main.rs:332-337): regular
files whose name's part before the first `'_'` parses as a `usize`. -/
def listingNames (dir : List Entry) : List String :=
  ((dir.filter (fun e => e.isFile)).map (fun e => e.name)).filter
    (fun s => (parseIdx s).isSome)

/-- The restore listing (main.rs:330-342): filtered names sorted ascending
by numeric sort key.  Rust's `sort_unstable_by_key` is embedded as a
comparison sort on the same key; an unstable sort leaves the order of
equal keys unspecified, so any comparison sort realises it. -/
def restoreListing (dir : List Entry) : List String :=
  List.insertionSort keyLe (listingNames dir)

/-- Restore copy (main.rs:343-353): `fs::copy` from the chosen entry of the
snapshot directory onto the destination, overwriting the destination's
previous content entirely — the result does not depend on `destOld`. -/
def restoreTo (dir : List Entry) (chosen : String) (_destOld : List Nat) :
    Option (List Nat) :=
  (dir.find? (fun e => e.name == chosen)).map (fun e => e.content)

/-- A run of successive `backup_core` calls: each call operates on the
directory left by the previous one; the assigned indices are collected. -/
def runCreates : List (String × List Nat) → List Entry → List Entry × List Nat
  | [], dir => (dir, [])
  | (note, src) :: rest, dir =>
    let r := backup_core dir src note
    let k := runCreates rest r.1
    (k.1, r.2 :: k.2)

/-- A run of creates starting from an initially empty directory. -/
def runCreatesAll (reqs : List (String × List Nat)) : List Entry × List Nat :=
  runCreates reqs []

/-- The entries a run of creates appends, first index `n`. -/
def newEntries (n : Nat) : List (String × List Nat) → List Entry
  | [] => []
  | (note, src) :: rest => ⟨mkName n note, true, src⟩ :: newEntries (n + 1) rest

/-! ### Digit and decimal-print lemmas -/

theorem digitChar_toNat {d : Nat} (h : d < 10) : (digitChar d).toNat = 48 + d := by
  interval_cases d <;> rfl

theorem digitChar_isDigit {d : Nat} (h : d < 10) : (digitChar d).isDigit = true := by
  interval_cases d <;> rfl

theorem natDigits_ne_nil (n : Nat) : natDigits n ≠ [] := by
  rw [natDigits]
  split
  · simp
  · simp

theorem natDigits_all_digit (n : Nat) : ∀ c ∈ natDigits n, c.isDigit = true := by
  induction n using Nat.strong_induction_on with
  | _ n ih =>
    rw [natDigits]
    split
    · intro c hc
      simp at hc
      subst hc
      exact digitChar_isDigit (by omega)
    · intro c hc
      rw [List.mem_append] at hc
      rcases hc with hc | hc
      · exact ih (n / 10) (Nat.div_lt_self (by omega) (by omega)) c hc
      · simp at hc
        subst hc
        exact digitChar_isDigit (Nat.mod_lt _ (by omega))

theorem digitsVal_natDigits (n : Nat) : digitsVal (natDigits n) = n := by
  induction n using Nat.strong_induction_on with
  | _ n ih =>
    rw [natDigits]
    split
    · simp [digitsVal, digitChar_toNat ‹n < 10›]
    · have hdiv := ih (n / 10) (Nat.div_lt_self (by omega) (by omega))
      simp only [digitsVal, List.foldl_append, List.foldl_cons, List.foldl_nil] at *
      rw [hdiv, digitChar_toNat (Nat.mod_lt _ (by omega))]
      omega

theorem digit_ne_sep {c : Char} (h : c.isDigit = true) : (c != '_') = true := by
  rcases eq_or_ne c '_' with rfl | hne
  · exact absurd h (by decide)
  · exact bne_iff_ne.mpr hne

theorem digit_ne_plus {c : Char} (h : c.isDigit = true) : c ≠ '+' := by
  rintro rfl
  exact absurd h (by decide)

/-! ### Parsing the printed index back -/

theorem takeWhile_append_stop {p : Char → Bool} {xs ys : List Char} {y : Char}
    (hall : ∀ c ∈ xs, p c = true) (hy : p y = false) :
    (xs ++ y :: ys).takeWhile p = xs := by
  induction xs with
  | nil => simp [List.takeWhile_cons, hy]
  | cons a l ih =>
    have ha : p a = true := hall a (by simp)
    simp only [List.cons_append, List.takeWhile_cons, ha, if_true]
    rw [ih (fun c hc => hall c (by simp [hc]))]

theorem indexPart_eq (s : String) :
    indexPart s = ⟨s.data.takeWhile (fun c => c != '_')⟩ := by
  unfold indexPart splitn2
  split <;> rfl

theorem natStr_data (n : Nat) : (natStr n).data = natDigits n := rfl

theorem parseDigits_natDigits (n : Nat) : parseDigits (natDigits n) = some n := by
  unfold parseDigits
  rw [if_pos ⟨natDigits_ne_nil n, List.all_eq_true.mpr (natDigits_all_digit n)⟩,
    digitsVal_natDigits]

theorem parseUsize_natDigits (n : Nat) : parseUsize ⟨natDigits n⟩ = some n := by
  obtain ⟨c, cs, hcons⟩ : ∃ c cs, natDigits n = c :: cs := by
    rcases h : natDigits n with _ | ⟨c, cs⟩
    · exact absurd h (natDigits_ne_nil n)
    · exact ⟨c, cs, rfl⟩
  have hc : c.isDigit = true := natDigits_all_digit n c (by rw [hcons]; simp)
  unfold parseUsize
  rw [if_neg]
  · exact parseDigits_natDigits n
  · simp only [hcons, List.head?_cons, Option.some.injEq]
    exact digit_ne_plus hc

theorem indexPart_natStr (n : Nat) : indexPart (natStr n) = natStr n := by
  rw [indexPart_eq, natStr]
  have : (natDigits n).takeWhile (fun c => c != '_') = natDigits n :=
    List.takeWhile_eq_self_iff.mpr
      (fun c hc => digit_ne_sep (natDigits_all_digit n c hc))
  exact congrArg String.mk this

theorem parseIdx_natStr (n : Nat) : parseIdx (natStr n) = some n := by
  unfold parseIdx
  rw [indexPart_natStr]
  exact parseUsize_natDigits n

theorem mkName_data_of_ne {n : Nat} {note : String} (h : ¬ note = "") :
    (mkName n note).data = natDigits n ++ '_' :: (strTrim note).data := by
  unfold mkName
  rw [if_neg h, String.data_append, String.data_append]
  simp [natStr]

theorem parseIdx_mkName (n : Nat) (note : String) :
    parseIdx (mkName n note) = some n := by
  by_cases h : note = ""
  · unfold mkName
    rw [if_pos h]
    exact parseIdx_natStr n
  · unfold parseIdx
    rw [indexPart_eq]
    have htw : (mkName n note).data.takeWhile (fun c => c != '_') = natDigits n := by
      rw [mkName_data_of_ne h]
      exact takeWhile_append_stop
        (fun c hc => digit_ne_sep (natDigits_all_digit n c hc)) (by decide)
    rw [htw]
    exact parseUsize_natDigits n

theorem mkName_injective_idx {a b : Nat} {x y : String} (h : mkName a x = mkName b y) :
    a = b := by
  have := parseIdx_mkName a x
  rw [h, parseIdx_mkName b y] at this
  exact (Option.some.injEq _ _ ▸ this).symm

/-! ### Maximum of a list of naturals -/

theorem foldl_max_mem (a : Nat) (l : List Nat) : l.foldl max a ∈ a :: l := by
  induction l generalizing a with
  | nil => simp
  | cons b t ih =>
    simp only [List.foldl_cons]
    rcases List.mem_cons.mp (ih (max a b)) with h | h
    · rcases max_choice a b with hab | hab <;> rw [h, hab] <;> simp
    · simp [h]

theorem le_foldl_max (a : Nat) (l : List Nat) : a ≤ l.foldl max a := by
  induction l generalizing a with
  | nil => exact Nat.le_refl a
  | cons b t ih =>
    simp only [List.foldl_cons]
    exact Nat.le_trans (Nat.le_max_left a b) (ih (max a b))

theorem foldl_max_le {a m : Nat} {l : List Nat} (ha : a ≤ m)
    (hl : ∀ x ∈ l, x ≤ m) : l.foldl max a ≤ m := by
  induction l generalizing a with
  | nil => exact ha
  | cons b t ih =>
    simp only [List.foldl_cons]
    exact ih (Nat.max_le.mpr ⟨ha, hl b (by simp)⟩) (fun x hx => hl x (by simp [hx]))

theorem mem_le_foldl_max {x a : Nat} {l : List Nat} (hx : x ∈ a :: l) :
    x ≤ l.foldl max a := by
  induction l generalizing a with
  | nil => simp at hx; subst hx; exact Nat.le_refl x
  | cons b t ih =>
    simp only [List.foldl_cons]
    rcases List.mem_cons.mp hx with rfl | hx
    · exact Nat.le_trans (Nat.le_max_left x b) (le_foldl_max _ t)
    · rcases List.mem_cons.mp hx with rfl | hx
      · exact Nat.le_trans (Nat.le_max_right a x) (le_foldl_max _ t)
      · exact ih (List.mem_cons.mpr (Or.inr hx))

theorem nat_max?_eq_some_iff {l : List Nat} {m : Nat} :
    l.max? = some m ↔ m ∈ l ∧ ∀ x ∈ l, x ≤ m := by
  cases l with
  | nil => simp [List.max?]
  | cons a t =>
    constructor
    · intro h
      have hm : t.foldl max a = m := Option.some.injEq _ _ ▸ h
      subst hm
      exact ⟨foldl_max_mem a t, fun x hx => mem_le_foldl_max hx⟩
    · rintro ⟨hm, hb⟩
      have h1 : t.foldl max a ≤ m := hb _ (foldl_max_mem a t)
      have h2 : m ≤ t.foldl max a := mem_le_foldl_max hm
      show some (t.foldl max a) = some m
      rw [Nat.le_antisymm h1 h2]

/-! ### The next-index computation against the spec's wording -/

/-- The next-index computation stated as the spec words it: the maximum
value among file entries whose name's part before the first separator
parses as a positive integer, plus one; `1` when no entry so parses.
This is to be compared with `nextSaveNumber`, the pipeline of the code. -/
def nextIndexSpec (dir : List Entry) : Nat :=
  match ((parsedIndices dir).filter (fun x => 0 < x)).max? with
  | some m => m + 1
  | none => 1

theorem nextSaveNumber_eq_spec (dir : List Entry) :
    nextSaveNumber dir = nextIndexSpec dir := by
  unfold nextSaveNumber nextIndexSpec
  rcases h : (parsedIndices dir).max? with _ | m
  · rw [List.max?_eq_none_iff] at h
    rw [h]
    rfl
  · obtain ⟨hm, hb⟩ := nat_max?_eq_some_iff.mp h
    by_cases h0 : m = 0
    · subst h0
      have hnil : (parsedIndices dir).filter (fun x => 0 < x) = [] := by
        rw [List.filter_eq_nil_iff]
        intro a ha
        have := hb a ha
        simp
        omega
      rw [hnil]
      rfl
    · have hp : ((parsedIndices dir).filter (fun x => 0 < x)).max? = some m := by
        rw [nat_max?_eq_some_iff]
        refine ⟨List.mem_filter.mpr ⟨hm, by simpa using Nat.pos_of_ne_zero h0⟩, ?_⟩
        intro x hx
        exact hb x (List.mem_filter.mp hx).1
      rw [hp]

/-- The directory of the spec's worked example: entries `3`, `7_foo`,
`abc`, `2_bar`, all regular files. -/
def exampleDir : List Entry :=
  [⟨"3", true, []⟩, ⟨"7_foo", true, []⟩, ⟨"abc", true, []⟩, ⟨"2_bar", true, []⟩]

/-! ### Sequences of creates -/

theorem parsedIndices_append (a b : List Entry) :
    parsedIndices (a ++ b) = parsedIndices a ++ parsedIndices b := by
  simp [parsedIndices, List.filter_append, List.map_append, List.filterMap_append]

theorem parsedIndices_new (n : Nat) (note : String) (src : List Nat) :
    parsedIndices [⟨mkName n note, true, src⟩] = [n] := by
  simp [parsedIndices, List.filterMap, parseIdx_mkName]

theorem nextSaveNumber_of_range {dir : List Entry} {k : Nat}
    (h : parsedIndices dir = List.range' 1 k) :
    nextSaveNumber dir = k + 1 := by
  unfold nextSaveNumber
  rw [h]
  cases k with
  | zero => rfl
  | succ n =>
    have hmax : (List.range' 1 (n + 1)).max? = some (n + 1) := by
      rw [nat_max?_eq_some_iff]
      constructor
      · rw [List.mem_range'_1]
        omega
      · intro x hx
        rw [List.mem_range'_1] at hx
        omega
    rw [hmax]

theorem runCreates_spec (reqs : List (String × List Nat)) :
    ∀ (dir : List Entry) (k : Nat), parsedIndices dir = List.range' 1 k →
      (runCreates reqs dir).1 = dir ++ newEntries (k + 1) reqs ∧
      (runCreates reqs dir).2 = List.range' (k + 1) reqs.length ∧
      parsedIndices (runCreates reqs dir).1 = List.range' 1 (k + reqs.length) := by
  induction reqs with
  | nil =>
    intro dir k h
    refine ⟨by simp [runCreates, newEntries], by simp [runCreates], ?_⟩
    simpa [runCreates] using h
  | cons req rest ih =>
    intro dir k h
    obtain ⟨note, src⟩ := req
    have hn : nextSaveNumber dir = k + 1 := nextSaveNumber_of_range h
    have hstep : backup_core dir src note =
        (dir ++ [⟨mkName (k + 1) note, true, src⟩], k + 1) := by
      unfold backup_core
      rw [hn]
    have hpi : parsedIndices (dir ++ [⟨mkName (k + 1) note, true, src⟩]) =
        List.range' 1 (k + 1) := by
      rw [parsedIndices_append, h, parsedIndices_new]
      have : List.range' 1 (k + 1) = List.range' 1 k ++ [1 + 1 * k] :=
        List.range'_concat 1 k
      rw [this]
      simp [Nat.add_comm]
    obtain ⟨ih1, ih2, ih3⟩ :=
      ih (dir ++ [⟨mkName (k + 1) note, true, src⟩]) (k + 1) hpi
    refine ⟨?_, ?_, ?_⟩
    · show (runCreates ((note, src) :: rest) dir).1 = _
      simp only [runCreates, hstep, ih1]
      simp [newEntries]
    · show (runCreates ((note, src) :: rest) dir).2 = _
      simp only [runCreates, hstep, ih2]
      show (k + 1) :: List.range' (k + 1 + 1) rest.length =
        List.range' (k + 1) (rest.length + 1)
      rw [List.range'_succ]
    · show parsedIndices (runCreates ((note, src) :: rest) dir).1 = _
      simp only [runCreates, hstep, ih3]
      have : k + 1 + rest.length = k + (rest.length + 1) := by omega
      rw [this]
      rfl

theorem runCreatesAll_spec (reqs : List (String × List Nat)) :
    (runCreatesAll reqs).1 = newEntries 1 reqs ∧
    (runCreatesAll reqs).2 = List.range' 1 reqs.length := by
  have h := runCreates_spec reqs [] 0 (by rfl)
  exact ⟨by simpa [runCreatesAll] using h.1, by simpa [runCreatesAll] using h.2.1⟩

/-! ### Listing lemmas -/

theorem listingNames_append (a b : List Entry) :
    listingNames (a ++ b) = listingNames a ++ listingNames b := by
  simp [listingNames, List.filter_append, List.map_append]

theorem parsedIndices_cons_none {e : Entry} {dir : List Entry}
    (h : parseIdx e.name = none) : parsedIndices (e :: dir) = parsedIndices dir := by
  unfold parsedIndices
  cases hf : e.isFile
  · simp [List.filter_cons, hf]
  · simp [List.filter_cons, hf, List.filterMap_cons, h]

theorem listingNames_cons_none {e : Entry} {dir : List Entry}
    (h : parseIdx e.name = none) : listingNames (e :: dir) = listingNames dir := by
  unfold listingNames
  cases hf : e.isFile
  · simp [List.filter_cons, hf]
  · simp [List.filter_cons, hf, h]

/-! ### Lookup of a created entry -/

theorem find?_newEntries (reqs : List (String × List Nat)) :
    ∀ (n k : Nat) (h : k < reqs.length),
      (newEntries n reqs).find?
          (fun e => e.name == mkName (n + k) (reqs.get ⟨k, h⟩).1) =
        some ⟨mkName (n + k) (reqs.get ⟨k, h⟩).1, true, (reqs.get ⟨k, h⟩).2⟩ := by
  induction reqs with
  | nil =>
    intro n k h
    simp at h
  | cons req rest ih =>
    intro n k h
    obtain ⟨note, src⟩ := req
    cases k with
    | zero =>
      rw [newEntries]
      rw [List.find?_cons_of_pos]
      · simp
      · simp
    | succ k' =>
      have hk' : k' < rest.length := by simpa using Nat.lt_of_succ_lt_succ h
      rw [newEntries]
      rw [List.find?_cons_of_neg]
      · have harg : n + 1 + k' = n + (k' + 1) := by omega
        have hrec := ih (n + 1) k' hk'
        rw [harg] at hrec
        simpa using hrec
      · simp only [beq_iff_eq]
        intro hcontra
        have := mkName_injective_idx hcontra
        omega

/-! ### The watch session

The debouncing of raw filesystem notifications is performed by the `notify`
crate (`notify::watcher(tx, Duration::from_secs(10))`, main.rs:371-372), an
external dependency whose source is not part of this repository; it is
modelled from the spec's debounce policy.  The repository's own watch loop
(main.rs:392-407) — create a snapshot for each received write-type debounced
event, ignore other event kinds — is embedded directly. -/

/-- Kind of a debounced notification received by the watch loop: the loop
only reacts to `DebouncedEvent::Write`, every other variant is ignored. -/
inductive DEvent where
  | write
  | other
deriving DecidableEq

/-- Modelled from the spec: the debounce policy of the `notify` crate's
debounced watcher, which is not part of this repository.  Raw change
notifications at the given instants are coalesced while they fall within
`w` of the previous one; a notification is delivered once a quiet period of
at least `w` follows, so the result counts the bursts. -/
def coalesceCount (w : Nat) : List Nat → Nat
  | [] => 0
  | [_] => 1
  | t₁ :: t₂ :: rest => (if w ≤ t₂ - t₁ then 1 else 0) + coalesceCount w (t₂ :: rest)

/-- Modelled from the spec: the write-type debounced notifications the
watcher delivers for a burst list of raw write instants. -/
def debouncedEvents (w : Nat) (times : List Nat) : List DEvent :=
  List.replicate (coalesceCount w times) DEvent.write

/-- The watch loop body (main.rs:392-407): for each received event, create
a snapshot with an empty note when it is a write, do nothing otherwise. -/
def autoLoop (src : List Nat) : List DEvent → List Entry → List Entry
  | [], dir => dir
  | DEvent.write :: rest, dir => autoLoop src rest (backup_core dir src "").1
  | DEvent.other :: rest, dir => autoLoop src rest dir

theorem coalesceCount_burst {w : Nat} :
    ∀ {times : List Nat}, times ≠ [] →
      List.Chain' (fun a b => b - a < w) times → coalesceCount w times = 1 := by
  intro times
  induction times with
  | nil => intro h; exact absurd rfl h
  | cons t rest ih =>
    intro _ hchain
    cases rest with
    | nil => rfl
    | cons t₂ r =>
      obtain ⟨hgap, htail⟩ := List.chain'_cons.mp hchain
      have htr := ih (by simp) htail
      show (if w ≤ t₂ - t then 1 else 0) + coalesceCount w (t₂ :: r) = 1
      rw [if_neg (by omega), htr]

/-- Predicate of the claim's wording: the entry name begins with a
parseable positive integer (its part before the first separator parses and
the value is positive). -/
def beginsWithPosIndex (s : String) : Bool :=
  match parseIdx s with
  | some n => 0 < n
  | none => false

/-! ### The claims -/

/-- C1: for every listable snapshot directory, the next-index computation of
`backup_core` returns max + 1, where max ranges over the file entries whose
name's part before the first `'_'` parses as a positive integer, and returns
1 when no entry so parses; on a directory containing exactly the entries
`3`, `7_foo`, `abc`, `2_bar` it returns 8. -/
theorem claim_C1_next_index (dir : List Entry) (src : List Nat) (note : String) :
    (backup_core dir src note).2 = nextIndexSpec dir ∧
    (backup_core exampleDir src note).2 = 8 := by
  constructor
  · show nextSaveNumber dir = nextIndexSpec dir
    exact nextSaveNumber_eq_spec dir
  · show nextSaveNumber exampleDir = 8
    decide

/-- C2: a sequence of N successful creates starting from an initially empty
snapshot directory, with any mix of notes, assigns exactly the indices
1..N, each exactly once, strictly increasing in creation order. -/
theorem claim_C2_sequential_indices (reqs : List (String × List Nat)) :
    (runCreatesAll reqs).2 = List.range' 1 reqs.length ∧
    (∀ i : Nat, i ∈ (runCreatesAll reqs).2 ↔ 1 ≤ i ∧ i ≤ reqs.length) ∧
    (runCreatesAll reqs).2.Nodup ∧
    List.Pairwise (fun a b => a < b) (runCreatesAll reqs).2 := by
  have h := (runCreatesAll_spec reqs).2
  refine ⟨h, ?_, ?_, ?_⟩
  · intro i
    rw [h, List.mem_range'_1]
    omega
  · rw [h]
    exact List.nodup_range' 1 reqs.length
  · rw [h]
    exact List.pairwise_lt_range' 1 reqs.length

/-- C3 counterexample: the entry named `0` does not begin with a parseable
positive integer (its parse is 0), yet the restore listing includes it, so
the claim's "never appears in the listing" fails as stated. -/
theorem claim_C3_counterexample :
    beginsWithPosIndex "0" = false ∧
    "0" ∈ restoreListing [⟨"0", true, []⟩] := by
  decide

/-- C3 (amended): for every directory entry whose name's part before the
first `'_'` does not parse as a nonnegative integer (`usize`) at all, both
the index computation and the restore listing silently exclude the entry:
it contributes nothing to the parsed indices or the computed next index,
and the listing is the same with or without it; both functions stay total
on it.  (Entries parsing to the non-positive index 0 are excluded from the
claim: they still never change the computed next index, but they do appear
in the listing.) -/
theorem claim_C3_amended (dir₁ dir₂ : List Entry) (e : Entry)
    (h : parseIdx e.name = none) :
    parsedIndices (dir₁ ++ e :: dir₂) = parsedIndices (dir₁ ++ dir₂) ∧
    nextSaveNumber (dir₁ ++ e :: dir₂) = nextSaveNumber (dir₁ ++ dir₂) ∧
    restoreListing (dir₁ ++ e :: dir₂) = restoreListing (dir₁ ++ dir₂) := by
  have hp : parsedIndices (dir₁ ++ e :: dir₂) = parsedIndices (dir₁ ++ dir₂) := by
    rw [parsedIndices_append, parsedIndices_append, parsedIndices_cons_none h]
  have hl : listingNames (dir₁ ++ e :: dir₂) = listingNames (dir₁ ++ dir₂) := by
    rw [listingNames_append, listingNames_append, listingNames_cons_none h]
  refine ⟨hp, ?_, ?_⟩
  · unfold nextSaveNumber
    rw [hp]
  · unfold restoreListing
    rw [hl]

/-- Witness for C3 (amended): inserting the malformed entry `abc` between
`3` and `2_bar` changes neither the computed listing nor its value. -/
theorem claim_C3_amended_witness :
    restoreListing ([⟨"3", true, []⟩] ++ ⟨"abc", true, []⟩ :: [⟨"2_bar", true, []⟩]) =
      restoreListing ([⟨"3", true, []⟩] ++ [⟨"2_bar", true, []⟩]) ∧
    restoreListing ([⟨"3", true, []⟩] ++ [⟨"2_bar", true, []⟩]) = ["2_bar", "3"] := by
  refine ⟨(claim_C3_amended [⟨"3", true, []⟩] [⟨"2_bar", true, []⟩]
    ⟨"abc", true, []⟩ (by decide)).2.2, by decide⟩

/-- C4: the restore listing consists exactly of the file entries whose
name's part before the first `'_'` parses as a (`usize`) integer, ordered
ascending by that numeric value; on the directory with entries `3`,
`7_foo`, `abc`, `2_bar` it is `["2_bar", "3", "7_foo"]`, without `abc`. -/
theorem claim_C4_restore_listing (dir : List Entry) :
    (restoreListing dir).Perm
      (((dir.filter (fun e => e.isFile)).map (fun e => e.name)).filter
        (fun s => (parseIdx s).isSome)) ∧
    List.Sorted keyLe (restoreListing dir) ∧
    restoreListing exampleDir = ["2_bar", "3", "7_foo"] ∧
    "abc" ∉ restoreListing exampleDir := by
  refine ⟨List.perm_insertionSort keyLe _, List.sorted_insertionSort keyLe _,
    by decide, by decide⟩

/-- C5: a successful create appends exactly one entry, named `"{index}"`
when the note is empty and `"{index}_{trimmedNote}"` (index, one separator,
note with surrounding whitespace stripped, no further escaping) otherwise;
the index part of the new name always parses back to the assigned index. -/
theorem claim_C5_entry_name (dir : List Entry) (src : List Nat) (note : String) :
    (backup_core dir src note).1 =
      dir ++ [⟨if note = "" then natStr (nextSaveNumber dir)
               else natStr (nextSaveNumber dir) ++ "_" ++ strTrim note,
              true, src⟩] ∧
    parseIdx (mkName (nextSaveNumber dir) note) = some (nextSaveNumber dir) :=
  ⟨rfl, parseIdx_mkName _ _⟩

/-- C6: a create whose source path is not a regular file fails with the
source-missing outcome and leaves the directory contents untouched. -/
theorem claim_C6_source_missing (f : String) (dir : List Entry)
    (src : List Nat) (note : String) :
    backup (some f) false dir src note = (BackupOutcome.sourceMissing, dir) :=
  rfl

/-- C7: restoring the k-th snapshot of a run of creates reproduces
byte-for-byte the source content captured when that snapshot was created,
for any prior destination content (overwrite) and independently of all
snapshots created afterwards in the run. -/
theorem claim_C7_create_restore (reqs : List (String × List Nat)) (k : Nat)
    (h : k < reqs.length) (destOld : List Nat) :
    restoreTo (runCreatesAll reqs).1 (mkName (k + 1) (reqs.get ⟨k, h⟩).1) destOld =
      some (reqs.get ⟨k, h⟩).2 := by
  rw [(runCreatesAll_spec reqs).1]
  unfold restoreTo
  have hfind := find?_newEntries reqs 1 k h
  have harg : 1 + k = k + 1 := by omega
  rw [harg] at hfind
  rw [hfind]
  rfl

/-- Witness for C7: restoring the first of two snapshots returns its
captured bytes, not the later snapshot's, whatever the destination held. -/
theorem claim_C7_witness :
    restoreTo (runCreatesAll [("", [3, 1, 4]), ("foo", [1, 5])]).1
        (mkName 1 "") [9, 9] = some [3, 1, 4] :=
  claim_C7_create_restore [("", [3, 1, 4]), ("foo", [1, 5])] 0 (by decide) [9, 9]

/-- C8: in the watch session a snapshot is created only for a write-type
debounced notification, and raw notifications within the debounce window
are coalesced: a burst of writes each within the window of its predecessor
yields exactly one debounced write, hence exactly one snapshot. -/
theorem claim_C8_debounce (w : Nat) (times : List Nat) (dir : List Entry)
    (src : List Nat) (h1 : times ≠ [])
    (h2 : List.Chain' (fun a b => b - a < w) times) :
    coalesceCount w times = 1 ∧
    autoLoop src (debouncedEvents w times) dir = (backup_core dir src "").1 ∧
    (autoLoop src (debouncedEvents w times) dir).length = dir.length + 1 ∧
    (∀ dir' : List Entry, autoLoop src [DEvent.other] dir' = dir') := by
  have hc := coalesceCount_burst h1 h2
  have hev : debouncedEvents w times = [DEvent.write] := by
    rw [debouncedEvents, hc]
    rfl
  refine ⟨hc, ?_, ?_, fun dir' => rfl⟩
  · rw [hev]
    rfl
  · rw [hev]
    show ((backup_core dir src "").1).length = dir.length + 1
    simp [backup_core]

/-- Witness for C8: six write notifications one second apart under a
ten-second window coalesce to one debounced write and one snapshot. -/
theorem claim_C8_witness :
    coalesceCount 10 [0, 1, 2, 3, 4, 5] = 1 ∧
    (autoLoop [7] (debouncedEvents 10 [0, 1, 2, 3, 4, 5]) []).length = 0 + 1 := by
  have h := claim_C8_debounce 10 [0, 1, 2, 3, 4, 5] [] [7] (by decide)
    (by simp [List.chain'_cons])
  exact ⟨h.1, h.2.2.1⟩

/-- C9: splitting an arbitrary entry name at the first separator always
yields a first part (the `unwrap` on `next()` cannot fail), and every name
retained by the restore listing's filter parses, so the `unwrap` inside the
sort key cannot fail either. -/
theorem claim_C9_unwraps_safe :
    (∀ s : String, ((splitn2 s).head?).isSome = true) ∧
    (∀ dir : List Entry, ∀ s ∈ listingNames dir, (parseIdx s).isSome = true) := by
  constructor
  · intro s
    unfold splitn2
    split <;> rfl
  · intro dir s hs
    exact (List.mem_filter.mp hs).2

/-- Witness for C9: the empty name still yields a first part, and the
listed name `3` of the example directory parses. -/
theorem claim_C9_witness :
    ((splitn2 "").head?).isSome = true ∧ (parseIdx "3").isSome = true :=
  ⟨claim_C9_unwraps_safe.1 "", claim_C9_unwraps_safe.2 exampleDir "3" (by decide)⟩

/-- C10: a note that is non-empty but trims to nothing produces the entry
name `"{index}_"` — index, trailing separator, empty suffix — which differs
from the bare `"{index}"` produced for an empty note. -/
theorem claim_C10_whitespace_note (n : Nat) (note : String)
    (h1 : note ≠ "") (h2 : strTrim note = "") :
    mkName n note = natStr n ++ "_" ∧
    mkName n "" = natStr n ∧
    mkName n note ≠ mkName n "" := by
  have hws : mkName n note = natStr n ++ "_" := by
    unfold mkName
    rw [if_neg h1, h2]
    simp
  have hem : mkName n "" = natStr n := by
    unfold mkName
    rw [if_pos rfl]
  refine ⟨hws, hem, ?_⟩
  rw [hws, hem]
  intro heq
  have hd := congrArg String.data heq
  rw [String.data_append] at hd
  have hlen := congrArg List.length hd
  rw [List.length_append] at hlen
  simp at hlen

/-- Witness for C10: the single-space note yields the name `1_` while the
empty note yields `1`. -/
theorem claim_C10_witness :
    mkName 1 " " = natStr 1 ++ "_" ∧ mkName 1 "" = natStr 1 := by
  have h := claim_C10_whitespace_note 1 " " (by decide) (by decide)
  exact ⟨h.1, h.2.1⟩

end SaveManager
